import Mathlib

/-!
# Verification of the unity-version-selector version registry

Shallow embedding of `src/main.go` (package `main`).  The program scans an
installation root for version-named directories, locates each version's
executable with a depth-bounded `filepath.Walk`, persists the resulting
version → executable mapping, and resolves a project's required version
against it.

Modelling conventions:
* A directory tree is an `FSEntry`; file systems are finite and given
  explicitly, so I/O errors other than the modelled outcomes do not occur.
* Paths are strings joined with the separator character `'/'`
  (the program joins candidate paths with `path.Join`, and `filepath.Walk`
  joins child paths with the platform separator; the model uses one
  separator character uniformly, matching `strings.Count(path, sep)`).
* `log.Fatal` (process termination) is modelled as an explicit
  `fatal` / `Except.error` outcome.
* Go map values are modelled as association lists with overwrite-insert,
  which preserves the key set and lookup semantics of `map[string]string`.
-/

/-- `depthCutoff` constant from main.go: the walk prunes any path whose
separator count exceeds this bound. -/
def depthCutoff : Nat := 6

/-- Number of path-separator characters in a path string
(`strings.Count(path, string(filepath.Separator))`). -/
def sepCount (s : String) : Nat := s.data.count '/'

/-- A filesystem entry: a plain file or a directory with children
(children are listed in the deterministic order `filepath.Walk` visits
them). -/
inductive FSEntry where
  | file (name : String)
  | dir (name : String) (children : List FSEntry)
deriving Repr

/-- Base name of an entry (`info.Name()`). -/
def entryName : FSEntry → String
  | .file n => n
  | .dir n _ => n

/-- Whether an entry is a directory (`info.IsDir()`). -/
def isDirE : FSEntry → Bool
  | .file _ => false
  | .dir _ _ => true

/-- Outcome of `filepath.Walk`'s recursive helper on a subtree, as driven
by the callback in `deepFind`:
* `done`  – the subtree was traversed without finding the target (`nil`);
* `skip`  – `filepath.SkipDir` is propagating (depth pruning);
* `found` – the callback returned the sentinel `dummyError{}` after
  recording `foundPath = p`. -/
inductive WOut where
  | done
  | skip
  | found (p : String)
deriving Repr, DecidableEq

/-- How `filepath.Walk`'s loop combines one child's outcome `childRes`
with the outcome `restRes` of traversing the remaining children of the
containing directory: a `found` sentinel returns immediately; `SkipDir`
from a non-directory child aborts the rest of the containing directory;
otherwise iteration continues.  (`restRes` is passed eagerly but discarded
in the first two cases, matching the early return.) -/
def walkStep (childRes : WOut) (c : FSEntry) (restRes : WOut) : WOut :=
  match childRes, c with
  | .found q, _ => .found q
  | .skip, .file _ => .skip
  | .skip, .dir _ _ => restRes
  | .done, _ => restRes

mutual

/-- The recursive core of `filepath.Walk` as instantiated by `deepFind`'s
callback (main.go 239–266): at path `p`, first the depth test
`strings.Count(path, sep) > depthCutoff → SkipDir`, then for a
non-directory entry the name test `info.Name() == "Unity.exe"`, which
records the path and returns the `dummyError{}` sentinel. -/
def walk (p : String) : FSEntry → WOut
  | .file n =>
    if sepCount p > depthCutoff then .skip
    else if n = "Unity.exe" then .found p else .done
  | .dir _ cs =>
    if sepCount p > depthCutoff then .skip
    else walkChildren p cs

/-- `filepath.Walk`'s iteration over a directory's children: a `found`
sentinel propagates; `SkipDir` returned from a non-directory child aborts
the remaining children of the containing directory, while from a directory
child it is swallowed and iteration continues. -/
def walkChildren (p : String) : List FSEntry → WOut
  | [] => .done
  | c :: rest => walkStep (walk (p ++ "/" ++ entryName c) c) c (walkChildren p rest)

end

/-- Result of `deepFind`: either the recorded found path is returned, or
the process terminates via `log.Fatal` (main.go 261–263: any walk outcome
other than the `dummyError{}` sentinel — including the `nil` error of a
completed-but-unsuccessful walk — reaches `log.Fatal`). -/
inductive DFResult where
  | ok (p : String)
  | fatal
deriving Repr, DecidableEq

set_option linter.unusedVariables false in
/-- `deepFind(root, name)` from main.go 239–266, applied to the tree
`t` mounted at path `root`.  The `name` argument is accepted but unused,
exactly as in the source (the comparison at line 253 is against the
literal `"Unity.exe"`).  `filepath.Walk` converts a top-level `SkipDir`
to `nil`; the final test `err != (dummyError{})` sends every non-sentinel
outcome to `log.Fatal`. -/
def deepFind (root : String) (t : FSEntry) (name : String) : DFResult :=
  match walk root t with
  | .found q => .ok q
  | .done => .fatal
  | .skip => .fatal

mutual

/-- Specification predicate (not part of the program): the subtree mounted
at path `p` contains a file named `Unity.exe` whose full path has at most
`depthCutoff` separators. -/
def hasUnityExe (p : String) : FSEntry → Bool
  | .file n => n = "Unity.exe" && sepCount p ≤ depthCutoff
  | .dir _ cs => hasUnityExeL p cs

/-- List form of `hasUnityExe` over the children of a directory at `p`. -/
def hasUnityExeL (p : String) : List FSEntry → Bool
  | [] => false
  | c :: rest => hasUnityExe (p ++ "/" ++ entryName c) c || hasUnityExeL p rest

end

mutual

/-- Well-formedness of a real directory tree: no entry name contains the
path separator character. -/
def cleanEntry : FSEntry → Bool
  | .file n => !n.data.contains '/'
  | .dir n cs => !n.data.contains '/' && cleanList cs

/-- List form of `cleanEntry`. -/
def cleanList : List FSEntry → Bool
  | [] => true
  | c :: rest => cleanEntry c && cleanList rest

end

/-! ## Version directory scanner (`loadVersions`, main.go 199–226) -/

/-- Go map assignment `m[k] = v`: overwrite the binding of `k` if present,
otherwise add it. -/
def insertKV : List (String × String) → String → String → List (String × String)
  | [], k, v => [(k, v)]
  | (k', v') :: rest, k, v =>
    if k' = k then (k, v) :: rest else (k', v') :: insertKV rest k v

/-- Go map read `m[k]` (`value, ok` form). -/
def lookupKV : List (String × String) → String → Option String
  | [], _ => none
  | (k', v') :: rest, k => if k' = k then some v' else lookupKV rest k

/-- First-capture-group function of the compiled default pattern
`^Unity(.+)$` (`regexp.FindStringSubmatch` returning `s[1]`): the name
matches iff it is `"Unity"` followed by a nonempty run of non-newline
characters extending to the end of the name, and the capture is that
remainder. -/
def unityCapture (name : String) : Option String :=
  if "Unity".data.isPrefixOf name.data
      && !(name.data.drop 5).isEmpty
      && !(name.data.drop 5).contains '\n'
  then some (String.mk (name.data.drop 5)) else none

/-- Loop body of `loadVersions` (main.go 208–223), folded over the entries
of the installation root with the accumulated map `acc`.  `matchCap` is
the first-capture function of the compiled `config.DirPattern`
(`r.FindStringSubmatch` with the `len(s) >= 2` test; `unityCapture` is its
instance at the default pattern).  Non-directories and non-matching names
are skipped; for a match, `deepFind(path.Join(ProgramDir, name),
"Unity.exe")` either terminates the process (`Except.error`) or yields the
executable path, where an empty result would be dropped with a diagnostic
(`log.Println`) and a non-empty one is stored. -/
def loadVersionsGo (matchCap : String → Option String) (programDir : String) :
    List FSEntry → List (String × String) → Except Unit (List (String × String))
  | [], acc => .ok acc
  | .file _ :: rest, acc => loadVersionsGo matchCap programDir rest acc
  | .dir name cs :: rest, acc =>
    match matchCap name with
    | none => loadVersionsGo matchCap programDir rest acc
    | some v =>
      match deepFind (programDir ++ "/" ++ name) (.dir name cs) "Unity.exe" with
      | .fatal => .error ()
      | .ok exe =>
        if exe = "" then loadVersionsGo matchCap programDir rest acc
        else loadVersionsGo matchCap programDir rest (insertKV acc v exe)

/-- `loadVersions(config)` (main.go 199–226) applied to the listing
`files` of `config.ProgramDir`. -/
def loadVersions (matchCap : String → Option String) (programDir : String)
    (files : List FSEntry) : Except Unit (List (String × String)) :=
  loadVersionsGo matchCap programDir files []

/-! ## Ordered version keys (`getVersionKeys`, main.go 180–197) -/

/-- `strings.HasPrefix(key, "20")`. -/
def hasPre20 (k : String) : Bool := "20".data.isPrefixOf k.data

/-- Lexicographic order on character lists, exactly the byte-wise string
comparison Go's `sort.Strings` uses (on UTF-8 data, byte order and
code-point order coincide). -/
def charListLe : List Char → List Char → Bool
  | [], _ => true
  | _ :: _, [] => false
  | a :: as, b :: bs =>
    if a.toNat < b.toNat then true
    else if b.toNat < a.toNat then false
    else charListLe as bs

/-- Ascending lexicographic order on strings (the order of `sort.Strings`). -/
def strLe (a b : String) : Bool := charListLe a.data b.data

/-- `sort.Strings`: sort ascending by the lexicographic string order.
Modelled by insertion sort, which is extensionally the unique ascending
reordering. -/
def sortStrings (l : List String) : List String :=
  l.insertionSort (fun a b => strLe a b = true)

/-- `getVersionKeys` (main.go 180–197): partition the keys of the
`Versions` map into those not prefixed `"20"` and those prefixed `"20"`,
sort each group ascending with `sort.Strings`, and concatenate the
non-`"20"` group first.  The map is modelled by the association list
`versions`; its iteration order is the list order, which the theorems show
to be irrelevant. -/
def getVersionKeys (versions : List (String × String)) : List String :=
  sortStrings ((versions.map Prod.fst).filter (fun k => !hasPre20 k))
    ++ sortStrings ((versions.map Prod.fst).filter (fun k => hasPre20 k))

/-! ## Project version extractor (`getProjectVersion`, main.go 126–145) -/

/-- The literal part of `versionPattern` (main.go 33). -/
def versionMarker : List Char := "m_EditorVersion: ".data

/-- Leftmost match of the pattern `m_EditorVersion: (.+)` over the file
contents (`regexp.FindSubmatch`): scan for the first position where the
literal marker occurs followed by at least one non-`'\n'` character, and
return the greedy capture — the maximal run of non-`'\n'` characters after
the marker.  (`.` in Go regexp matches any character except `'\n'`;
in particular it matches `'\r'`.) -/
def findCapL : List Char → Option (List Char)
  | [] => none
  | c :: rest =>
    if versionMarker.isPrefixOf (c :: rest) then
      if (((c :: rest).drop versionMarker.length).takeWhile (· ≠ '\n')).isEmpty
      then findCapL rest
      else some (((c :: rest).drop versionMarker.length).takeWhile (· ≠ '\n'))
    else findCapL rest

/-- String form of `findCapL`: the capture of
`regexp.MustCompile(versionPattern).FindSubmatch(data)` when the pattern
matches. -/
def findVersionCapture (data : String) : Option String :=
  (findCapL data.data).map String.mk

/-- `getProjectVersion(projectPath)` (main.go 126–145), applied to the
contents of `<projectPath>/ProjectSettings/ProjectVersion.txt`
(`metadata = none` models a missing file, `isExists` false).  Each
`log.Fatal` is an `Except.error` carrying its message. -/
def getProjectVersion (metadata : Option String) : Except String String :=
  match metadata with
  | none => .error "No ProjectVersion.txt"
  | some data =>
    match findVersionCapture data with
    | none => .error "ProjectVersion.txt doesn't have m_EditorVersion"
    | some v => .ok v

/-! ## Resolver (`openProject`, main.go 147–160) -/

/-- `config.openProject(path)` (main.go 147–160): extract the project's
version, look it up in `config.Versions`, and on a hit start
`exec.Command(exe, "-projectPath", path)` — modelled as returning the
started command line.  On a miss, `log.Fatal("The version not found")`. -/
def openProject (versions : List (String × String)) (projectPath : String)
    (metadata : Option String) : Except String (String × List String) :=
  match getProjectVersion metadata with
  | .error e => .error e
  | .ok version =>
    match lookupKV versions version with
    | none => .error "The version not found"
    | some exe => .ok (exe, ["-projectPath", projectPath])

/-! ## Configuration, persistence and startup (main.go 23–39, 55–60, 162–178) -/

/-- The `Config` struct (main.go 23–27).  The Go `map[string]string` field
is modelled as an association list with unique keys. -/
structure Config where
  ProgramDir : String
  DirPattern : String
  Versions : List (String × String)
deriving Repr, DecidableEq

/-- `defaultConfig` (main.go 35–39). -/
def defaultConfig : Config :=
  { ProgramDir := "C:/Program Files", DirPattern := "^Unity(.+)$", Versions := [] }

/-- Modelled from the spec: the TOML serialization layer
(`BurntSushi/toml`'s `Encoder.Encode` and `DecodeFile`, an external
dependency not part of this repository), rendering the structured
key/value document of spec §6:
`ProgramDir = "…"`, `DirPattern = "…"`, a `[Versions]` table of
`"key" = "value"` lines.  Character-list form of the encoder. -/
def encodeVersL : List (String × String) → List Char
  | [] => []
  | (k, v) :: rest =>
    ['"'] ++ k.data ++ ['"'] ++ " = ".data ++ ['"'] ++ v.data ++ ['"'] ++ ['\n']
      ++ encodeVersL rest

/-- Modelled from the spec: serialization of a whole `Config` to the
document format of §6 (external `toml` encoder). -/
def encodeConfigL (c : Config) : List Char :=
  "ProgramDir = ".data ++ ['"'] ++ c.ProgramDir.data ++ ['"'] ++ ['\n']
    ++ "DirPattern = ".data ++ ['"'] ++ c.DirPattern.data ++ ['"'] ++ ['\n']
    ++ "[Versions]".data ++ ['\n'] ++ encodeVersL c.Versions

/-- String form of `encodeConfigL`. -/
def encodeConfig (c : Config) : String := String.mk (encodeConfigL c)

/-- Consume an expected literal prefix of the input. -/
def expectL (lit s : List Char) : Option (List Char) :=
  if lit.isPrefixOf s then some (s.drop lit.length) else none

/-- Read a quoted-string body: everything up to the next `'"'`, consuming
the closing quote. -/
def readStr (s : List Char) : Option (List Char × List Char) :=
  match s.dropWhile (· ≠ '"') with
  | _ :: r => some (s.takeWhile (· ≠ '"'), r)
  | [] => none

/-- Modelled from the spec: deserialization of the `[Versions]` table
(external `toml` decoder), with explicit fuel for termination. -/
def decodeVersGo : Nat → List Char → Option (List (String × String))
  | _, [] => some []
  | 0, _ :: _ => none
  | fuel + 1, c0 :: cs =>
    match expectL ['"'] (c0 :: cs) with
    | none => none
    | some s1 =>
      match readStr s1 with
      | none => none
      | some (k, s2) =>
        match expectL ([' '] ++ "= ".data ++ ['"']) s2 with
        | none => none
        | some s3 =>
          match readStr s3 with
          | none => none
          | some (v, s4) =>
            match expectL ['\n'] s4 with
            | none => none
            | some s5 =>
              match decodeVersGo fuel s5 with
              | none => none
              | some rest => some ((String.mk k, String.mk v) :: rest)

/-- Modelled from the spec: deserialization of a persisted `Config`
document (`toml.DecodeFile`, external dependency); `none` models a decode
error. -/
def decodeConfigL (s : List Char) : Option Config :=
  match expectL ("ProgramDir = ".data ++ ['"']) s with
  | none => none
  | some s1 =>
    match readStr s1 with
    | none => none
    | some (pd, s2) =>
      match expectL (['\n'] ++ "DirPattern = ".data ++ ['"']) s2 with
      | none => none
      | some s3 =>
        match readStr s3 with
        | none => none
        | some (dp, s4) =>
          match expectL (['\n'] ++ "[Versions]".data ++ ['\n']) s4 with
          | none => none
          | some s5 =>
            match decodeVersGo s5.length s5 with
            | none => none
            | some vs => some ⟨String.mk pd, String.mk dp, vs⟩

/-- String form of `decodeConfigL`. -/
def decodeConfig (st : String) : Option Config := decodeConfigL st.data

/-- `config.initialize(configDir)` (main.go 162–166): reset to
`defaultConfig`, rebuild `Versions` with `loadVersions`, and immediately
persist via `output` (main.go 168–178, which encodes the configuration to
the config file).  The result pairs the rebuilt configuration with the
persisted storage contents; `Except.error` models the `log.Fatal` paths. -/
def initConfig (files : List FSEntry) : Except Unit (Config × String) :=
  match loadVersions unityCapture defaultConfig.ProgramDir files with
  | .error e => .error e
  | .ok vers =>
    let c : Config := { defaultConfig with Versions := vers }
    .ok (c, encodeConfig c)

/-- Which startup path ran (main.go 55–60). -/
inductive StartupResult where
  | rebuilt (r : Except Unit (Config × String))
  | loaded (c : Config)
deriving Repr

/-- The startup configuration step of `main` (main.go 55–60): with
`--reload`, `initialize` runs unconditionally; otherwise
`toml.DecodeFile` is attempted (`stored = none` models a missing file,
`decodeConfig` failure a malformed one) and on any decode error
`initialize` runs as the fallback. -/
def startupConfig (reload : Bool) (stored : Option String)
    (files : List FSEntry) : StartupResult :=
  if reload then .rebuilt (initConfig files)
  else
    match stored.bind decodeConfig with
    | some c => .loaded c
    | none => .rebuilt (initConfig files)

example : decodeConfig (encodeConfig ⟨"a", "b", [("k", "v"), ("q", "w")]⟩) =
    some ⟨"a", "b", [("k", "v"), ("q", "w")]⟩ := rfl
example : getVersionKeys [("2021.1", "a"), ("5.6", "b"), ("2019.4", "c"), ("4.7", "d")] =
    ["4.7", "5.6", "2019.4", "2021.1"] := rfl
example : getProjectVersion (some "x\nm_EditorVersion: 2021.1.0f1\ny") = .ok "2021.1.0f1" := rfl
example : getProjectVersion (some "m_EditorVersion: 2.1\r\n") = .ok "2.1\r" := rfl
example : getProjectVersion (some "nothing here") =
    .error "ProjectVersion.txt doesn't have m_EditorVersion" := rfl

/-! ## Helper lemmas: separator counting -/

theorem sepCount_append (a b : String) : sepCount (a ++ b) = sepCount a + sepCount b := by
  simp [sepCount, String.data_append, List.count_append]

theorem sepCount_child (p n : String) :
    sepCount (p ++ "/" ++ n) = sepCount p + 1 + sepCount n := by
  rw [sepCount_append, sepCount_append]
  rfl

theorem sepCount_child_lt (p n : String) : sepCount p < sepCount (p ++ "/" ++ n) := by
  rw [sepCount_child]; omega

theorem sepCount_of_clean (n : String) (h : (!n.data.contains '/') = true) :
    sepCount n = 0 := by
  simp only [sepCount]
  refine List.count_eq_zero.mpr fun hm => ?_
  have hc : n.data.contains '/' = true :=
    List.contains_iff_exists_mem_beq.mpr ⟨'/', hm, by simp⟩
  rw [hc] at h
  simp at h

/-! ## Depth-cutoff lemmas about the walk -/

theorem walk_found_bound_pair :
    (∀ (p : String) (e : FSEntry), ∀ q, walk p e = .found q → sepCount q ≤ depthCutoff)
    ∧ (∀ (p : String) (cs : List FSEntry), ∀ q, walkChildren p cs = .found q →
        sepCount q ≤ depthCutoff) := by
  apply walk.mutual_induct
    (motive_1 := fun p e => ∀ q, walk p e = .found q → sepCount q ≤ depthCutoff)
    (motive_2 := fun p cs => ∀ q, walkChildren p cs = .found q → sepCount q ≤ depthCutoff)
  · intro p n h q hq
    simp [walk, h] at hq
  · intro p h q hq
    simp [walk, h] at hq
    subst hq
    omega
  · intro p n h hn q hq
    simp [walk, h, hn] at hq
  · intro p n cs h q hq
    simp [walk, h] at hq
  · intro p n cs h ih q hq
    simp only [walk, if_neg h] at hq
    exact ih q hq
  · intro p q hq
    simp [walkChildren] at hq
  · intro p c rest ihc ihrest q hq
    rw [walkChildren] at hq
    cases hw : walk (p ++ "/" ++ entryName c) c with
    | found q0 =>
      rw [hw] at hq
      simp [walkStep] at hq
      exact hq ▸ ihc q0 hw
    | skip =>
      rw [hw] at hq
      cases c with
      | file n => simp [walkStep] at hq
      | dir n cs => simp only [walkStep] at hq; exact ihrest q hq
    | done =>
      rw [hw] at hq
      cases c <;> simp only [walkStep] at hq <;> exact ihrest q hq

theorem hasUnityExe_out_of_bound :
    (∀ (p : String) (e : FSEntry), depthCutoff < sepCount p → hasUnityExe p e = false)
    ∧ (∀ (p : String) (cs : List FSEntry), depthCutoff ≤ sepCount p →
        hasUnityExeL p cs = false) := by
  apply hasUnityExe.mutual_induct
    (motive_1 := fun p e => depthCutoff < sepCount p → hasUnityExe p e = false)
    (motive_2 := fun p cs => depthCutoff ≤ sepCount p → hasUnityExeL p cs = false)
  · intro p n h
    have : ¬ (sepCount p ≤ depthCutoff) := by omega
    simp [hasUnityExe, this]
  · intro p n cs ih h
    rw [hasUnityExe]
    exact ih (by omega)
  · intro p _
    rfl
  · intro p c rest ihc ihrest h
    rw [hasUnityExeL, ihc (by have := sepCount_child_lt p (entryName c); omega),
      ihrest h]
    rfl

theorem walk_file_skip {p n : String} (h : walk p (.file n) = .skip) :
    depthCutoff < sepCount p := by
  by_contra hc
  rw [walk] at h
  rw [if_neg hc] at h
  split at h <;> cases h

theorem walk_notfound_pair :
    (∀ (p : String) (e : FSEntry), cleanEntry e = true →
      (∀ q, walk p e ≠ .found q) → hasUnityExe p e = false)
    ∧ (∀ (p : String) (cs : List FSEntry), cleanList cs = true →
      (∀ q, walkChildren p cs ≠ .found q) → hasUnityExeL p cs = false) := by
  apply walk.mutual_induct
    (motive_1 := fun p e => cleanEntry e = true →
      (∀ q, walk p e ≠ .found q) → hasUnityExe p e = false)
    (motive_2 := fun p cs => cleanList cs = true →
      (∀ q, walkChildren p cs ≠ .found q) → hasUnityExeL p cs = false)
  · intro p n h _ _
    have : ¬ (sepCount p ≤ depthCutoff) := by omega
    simp [hasUnityExe, this]
  · intro p h _ hnf
    exfalso
    exact hnf p (by simp [walk, h])
  · intro p n h hn _ _
    simp [hasUnityExe, hn]
  · intro p n cs h _ _
    rw [hasUnityExe]
    exact hasUnityExe_out_of_bound.2 p cs (by omega)
  · intro p n cs h ih hcl hnf
    rw [hasUnityExe]
    rw [cleanEntry, Bool.and_eq_true] at hcl
    refine ih hcl.2 fun q hq => hnf q ?_
    rw [walk, if_neg h]
    exact hq
  · intro p _ _
    rfl
  · intro p c rest ihc ihrest hcl hnf
    rw [cleanList, Bool.and_eq_true] at hcl
    rw [hasUnityExeL, Bool.or_eq_false_iff]
    have hnfc : ∀ q, walkChildren p (c :: rest) ≠ WOut.found q := hnf
    cases hw : walk (p ++ "/" ++ entryName c) c with
    | found q0 =>
      exact absurd (by rw [walkChildren, hw]; rfl) (hnfc q0)
    | done =>
      have hrest : ∀ q, walkChildren p rest ≠ .found q := by
        intro q hq
        refine hnfc q ?_
        rw [walkChildren, hw]
        cases c <;> simpa [walkStep] using hq
      refine ⟨ihc hcl.1 (by intro q hq; rw [hw] at hq; cases hq), ihrest hcl.2 hrest⟩
    | skip =>
      cases c with
      | file n =>
        have hdeep : depthCutoff < sepCount (p ++ "/" ++ entryName (FSEntry.file n)) :=
          walk_file_skip hw
        have hname : sepCount n = 0 := sepCount_of_clean n hcl.1
        rw [show entryName (FSEntry.file n) = n from rfl, sepCount_child, hname] at hdeep
        constructor
        · rw [hasUnityExe, Bool.and_eq_false_iff]
          right
          have : ¬ (sepCount (p ++ "/" ++ entryName (FSEntry.file n)) ≤ depthCutoff) := by
            rw [show entryName (FSEntry.file n) = n from rfl, sepCount_child, hname]
            omega
          simpa using this
        · exact hasUnityExe_out_of_bound.2 p rest (by omega)
      | dir n cs =>
        have hrest : ∀ q, walkChildren p rest ≠ .found q := by
          intro q hq
          refine hnfc q ?_
          rw [walkChildren, hw]
          simpa [walkStep] using hq
        exact ⟨ihc hcl.1 (by intro q hq; rw [hw] at hq; cases hq), ihrest hcl.2 hrest⟩

theorem walk_complete {p : String} {e : FSEntry} (hcl : cleanEntry e = true)
    (h : hasUnityExe p e = true) : ∃ q, walk p e = .found q := by
  cases hw : walk p e with
  | found q => exact ⟨q, rfl⟩
  | done =>
    have := walk_notfound_pair.1 p e hcl (fun q hq => by rw [hw] at hq; cases hq)
    rw [h] at this
    cases this
  | skip =>
    have := walk_notfound_pair.1 p e hcl (fun q hq => by rw [hw] at hq; cases hq)
    rw [h] at this
    cases this

/-! ## Claim theorems: the bounded tree search -/

/-- Claim C2: every entry whose absolute path has more than `depthCutoff`
(6) separators is pruned together with its subtree and never returned —
any path `deepFind` returns has at most 6 separators — and, on a tree
whose entry names contain no separator character, a `Unity.exe` file whose
absolute path has at most 6 separators (so that every ancestor directory
under the root is within the bound as well) is found. -/
theorem deepFind_depth_cutoff (root : String) (t : FSEntry) (nm : String) :
    (∀ p, deepFind root t nm = .ok p → sepCount p ≤ depthCutoff)
    ∧ (cleanEntry t = true → hasUnityExe root t = true →
        ∃ p, deepFind root t nm = .ok p) := by
  constructor
  · intro p hp
    rw [deepFind] at hp
    cases hw : walk root t with
    | found q =>
      rw [hw] at hp
      injection hp with hqp
      subst hqp
      exact walk_found_bound_pair.1 root t _ hw
    | done => rw [hw] at hp; cases hp
    | skip => rw [hw] at hp; cases hp
  · intro hcl hhas
    obtain ⟨q, hq⟩ := walk_complete hcl hhas
    exact ⟨q, by rw [deepFind, hq]⟩

/-- Claim C2 witness: a concrete in-bound target is found. -/
theorem deepFind_depth_cutoff_witness :
    cleanEntry (FSEntry.dir "Unity5.6" [FSEntry.file "Unity.exe"]) = true
    ∧ hasUnityExe "C:/Program Files/Unity5.6"
        (FSEntry.dir "Unity5.6" [FSEntry.file "Unity.exe"]) = true
    ∧ ∃ p, deepFind "C:/Program Files/Unity5.6"
        (FSEntry.dir "Unity5.6" [FSEntry.file "Unity.exe"]) "Unity.exe" = .ok p :=
  ⟨by decide, by decide,
    (deepFind_depth_cutoff "C:/Program Files/Unity5.6"
      (FSEntry.dir "Unity5.6" [FSEntry.file "Unity.exe"]) "Unity.exe").2
      (by decide) (by decide)⟩

/-- Claim C1 (code bug): when the bounded search finds no `Unity.exe`, the
walk's error is `nil`, the final `err != (dummyError{})` test at main.go
261 is therefore true, and `log.Fatal(nil)` terminates the process — so a
candidate directory without an executable aborts the whole scan instead of
being dropped with a diagnostic while the scan continues (making the
`exe == ""` recovery branch of `loadVersions` unreachable).  Concretely:
`deepFind` on an executable-less candidate is fatal, and a scan over a
matched-but-empty candidate followed by a good candidate aborts instead of
producing the good candidate's key. -/
theorem deepFind_missing_exe_fatal :
    deepFind "C:/Program Files/Unity2019.4" (.dir "Unity2019.4" []) "Unity.exe" = .fatal
    ∧ loadVersions unityCapture "C:/Program Files"
        [.dir "Unity2019.4" [], .dir "Unity5.6" [.file "Unity.exe"]] = .error () :=
  ⟨by decide, rfl⟩

/-- Claim C9: `deepFind` returns the same result regardless of its
`name` argument — the comparison at main.go 253 is hard-coded to the
literal `"Unity.exe"`, and the parameter is never read. -/
theorem deepFind_ignores_name (root : String) (t : FSEntry) (name : String) :
    deepFind root t name = deepFind root t "Unity.exe" := rfl

/-! ## Claim theorems: the scanner's key set -/

theorem insertKV_keys {m : List (String × String)} {k v k0 : String}
    (h : k0 ∈ (insertKV m k v).map Prod.fst) : k0 = k ∨ k0 ∈ m.map Prod.fst := by
  induction m with
  | nil => simpa [insertKV] using h
  | cons kv rest ih =>
    obtain ⟨k1, v1⟩ := kv
    rw [insertKV] at h
    by_cases hk : k1 = k
    · rw [if_pos hk, List.map_cons] at h
      rcases List.mem_cons.mp h with rfl | he2
      · exact .inl rfl
      · exact .inr (by rw [List.map_cons]; exact List.mem_cons_of_mem _ he2)
    · rw [if_neg hk, List.map_cons] at h
      rcases List.mem_cons.mp h with rfl | he2
      · exact .inr (by rw [List.map_cons]; exact List.mem_cons_self _ _)
      · rcases ih he2 with h1 | h1
        · exact .inl h1
        · exact .inr (by rw [List.map_cons]; exact List.mem_cons_of_mem _ h1)

theorem loadVersionsGo_keys (matchCap : String → Option String) (pd : String) :
    ∀ (files : List FSEntry) (acc m : List (String × String)),
      loadVersionsGo matchCap pd files acc = .ok m →
      ∀ k ∈ m.map Prod.fst, k ∈ acc.map Prod.fst ∨
        ∃ e ∈ files, isDirE e = true ∧ matchCap (entryName e) = some k := by
  intro files
  induction files with
  | nil =>
    intro acc m h k hk
    rw [loadVersionsGo] at h
    cases h
    exact .inl hk
  | cons f rest ih =>
    intro acc m h k hk
    cases f with
    | file n =>
      rw [loadVersionsGo] at h
      rcases ih acc m h k hk with h1 | ⟨e, he, hd, hc⟩
      · exact .inl h1
      · exact .inr ⟨e, List.mem_cons_of_mem _ he, hd, hc⟩
    | dir n cs =>
      rw [loadVersionsGo] at h
      split at h
      · rcases ih acc m h k hk with h1 | ⟨e, he, hd, hcap⟩
        · exact .inl h1
        · exact .inr ⟨e, List.mem_cons_of_mem _ he, hd, hcap⟩
      · rename_i v hc
        split at h
        · cases h
        · rename_i exe hdf
          split at h
          · rcases ih acc m h k hk with h1 | ⟨e, he, hd, hcap⟩
            · exact .inl h1
            · exact .inr ⟨e, List.mem_cons_of_mem _ he, hd, hcap⟩
          · rcases ih _ m h k hk with h1 | ⟨e, he, hd, hcap⟩
            · rcases insertKV_keys h1 with rfl | h2
              · exact .inr ⟨.dir n cs, List.mem_cons_self _ _, rfl, hc⟩
              · exact .inl h2
            · exact .inr ⟨e, List.mem_cons_of_mem _ he, hd, hcap⟩

/-- Claim C7: when the scan succeeds, its mapping has a key only for
immediate child entries that are directories whose names match the
directory pattern, and each key is exactly the pattern's first capture
group applied to that directory name; non-directory entries and
non-matching names never contribute keys. -/
theorem loadVersions_keys_spec (matchCap : String → Option String)
    (pd : String) (files : List FSEntry) (m : List (String × String))
    (h : loadVersions matchCap pd files = .ok m) :
    ∀ k ∈ m.map Prod.fst, ∃ e ∈ files,
      isDirE e = true ∧ matchCap (entryName e) = some k := by
  intro k hk
  rcases loadVersionsGo_keys matchCap pd files [] m h k hk with h1 | h2
  · simp at h1
  · exact h2

/-- Claim C7 witness, at the default pattern on a concrete listing: the
scanned key "5.6" traces back to the matching directory entry. -/
theorem loadVersions_keys_spec_witness :
    ∃ e ∈ [FSEntry.dir "Unity5.6" [FSEntry.dir "Editor" [FSEntry.file "Unity.exe"]],
        FSEntry.file "Unityx"],
      isDirE e = true ∧ unityCapture (entryName e) = some "5.6" :=
  loadVersions_keys_spec unityCapture "C:/Program Files"
    [FSEntry.dir "Unity5.6" [FSEntry.dir "Editor" [FSEntry.file "Unity.exe"]],
      FSEntry.file "Unityx"]
    [("5.6", "C:/Program Files/Unity5.6/Editor/Unity.exe")] rfl
    "5.6" (by decide)

/-! ## Claim theorems: ordered version keys -/

theorem charListLe_total : ∀ as bs : List Char,
    charListLe as bs = true ∨ charListLe bs as = true := by
  intro as
  induction as with
  | nil => intro bs; left; cases bs <;> rfl
  | cons a as ih =>
    intro bs
    cases bs with
    | nil => right; rfl
    | cons b bs =>
      simp only [charListLe]
      rcases Nat.lt_trichotomy a.toNat b.toNat with h | h | h
      · left; rw [if_pos h]
      · rw [if_neg (by omega), if_neg (by omega), if_neg (by omega), if_neg (by omega)]
        exact ih bs
      · right; rw [if_pos h]

theorem charListLe_trans : ∀ as bs cs : List Char, charListLe as bs = true →
    charListLe bs cs = true → charListLe as cs = true := by
  intro as
  induction as with
  | nil => intro bs cs _ _; cases cs <;> rfl
  | cons a as ih =>
    intro bs cs hab hbc
    cases bs with
    | nil => rw [charListLe] at hab; cases hab
    | cons b bs =>
      cases cs with
      | nil => rw [charListLe] at hbc; cases hbc
      | cons c cs =>
        rw [charListLe] at hab hbc ⊢
        by_cases hab1 : a.toNat < b.toNat
        · by_cases hbc1 : b.toNat < c.toNat
          · rw [if_pos (by omega)]
          · by_cases hbc2 : c.toNat < b.toNat
            · rw [if_neg hbc1, if_pos hbc2] at hbc; cases hbc
            · rw [if_pos (by omega)]
        · by_cases hab2 : b.toNat < a.toNat
          · rw [if_neg hab1, if_pos hab2] at hab; cases hab
          · by_cases hbc1 : b.toNat < c.toNat
            · rw [if_pos (by omega)]
            · by_cases hbc2 : c.toNat < b.toNat
              · rw [if_neg hbc1, if_pos hbc2] at hbc; cases hbc
              · rw [if_neg hab1, if_neg hab2] at hab
                rw [if_neg hbc1, if_neg hbc2] at hbc
                rw [if_neg (by omega), if_neg (by omega)]
                exact ih bs cs hab hbc

theorem charListLe_antisymm : ∀ as bs : List Char, charListLe as bs = true →
    charListLe bs as = true → as = bs := by
  intro as
  induction as with
  | nil =>
    intro bs h1 h2
    cases bs with
    | nil => rfl
    | cons b bs => rw [charListLe] at h2; cases h2
  | cons a as ih =>
    intro bs h1 h2
    cases bs with
    | nil => rw [charListLe] at h1; cases h1
    | cons b bs =>
      rw [charListLe] at h1 h2
      by_cases hab : a.toNat < b.toNat
      · rw [if_neg (by omega), if_pos hab] at h2; cases h2
      · by_cases hba : b.toNat < a.toNat
        · rw [if_neg hab, if_pos hba] at h1; cases h1
        · rw [if_neg hab, if_neg hba] at h1
          rw [if_neg hba, if_neg hab] at h2
          have hchar : a = b := by
            have hn : a.toNat = b.toNat := by omega
            have h3 := congrArg Char.ofNat hn
            simpa using h3
          rw [hchar, ih bs h1 h2]

instance strLeIsTotal : IsTotal String fun a b => strLe a b = true :=
  ⟨fun a b => charListLe_total a.data b.data⟩

instance strLeIsTrans : IsTrans String fun a b => strLe a b = true :=
  ⟨fun a b c => charListLe_trans a.data b.data c.data⟩

instance strLeIsAntisymm : IsAntisymm String fun a b => strLe a b = true :=
  ⟨fun a b h1 h2 => String.ext (charListLe_antisymm a.data b.data h1 h2)⟩

/-- Claim C3: `getVersionKeys` returns every key of the versions mapping
exactly once (it is a permutation of the key list), in the shape: the
group of keys not prefixed "20" first, then the group prefixed "20", each
group sorted ascending lexicographically; and the result is invariant
under reordering of the underlying map's iteration order (it is a
function of the key multiset alone). -/
theorem getVersionKeys_spec (vs vs' : List (String × String))
    (hperm : List.Perm (vs.map Prod.fst) (vs'.map Prod.fst)) :
    List.Perm (getVersionKeys vs) (vs.map Prod.fst)
    ∧ (∃ g1 g2, getVersionKeys vs = g1 ++ g2
        ∧ (∀ a ∈ g1, hasPre20 a = false) ∧ (∀ b ∈ g2, hasPre20 b = true)
        ∧ g1.Sorted (fun a b => strLe a b = true)
        ∧ g2.Sorted (fun a b => strLe a b = true))
    ∧ getVersionKeys vs = getVersionKeys vs' := by
  refine ⟨?_, ⟨_, _, rfl, ?_, ?_, ?_, ?_⟩, ?_⟩
  · refine ((List.perm_insertionSort _ _).append (List.perm_insertionSort _ _)).trans ?_
    simpa [Bool.not_not] using
      List.filter_append_perm (fun k => !hasPre20 k) (vs.map Prod.fst)
  · intro a ha
    have h1 := (List.perm_insertionSort (fun a b => strLe a b = true) _).mem_iff.mp ha
    have h2 := (List.mem_filter.mp h1).2
    simpa using h2
  · intro b hb
    have h1 := (List.perm_insertionSort (fun a b => strLe a b = true) _).mem_iff.mp hb
    exact (List.mem_filter.mp h1).2
  · exact List.sorted_insertionSort _ _
  · exact List.sorted_insertionSort _ _
  · have e1 : sortStrings ((vs.map Prod.fst).filter fun k => !hasPre20 k) =
        sortStrings ((vs'.map Prod.fst).filter fun k => !hasPre20 k) :=
      List.eq_of_perm_of_sorted
        (((List.perm_insertionSort _ _).trans (hperm.filter _)).trans
          (List.perm_insertionSort _ _).symm)
        (List.sorted_insertionSort _ _) (List.sorted_insertionSort _ _)
    have e2 : sortStrings ((vs.map Prod.fst).filter fun k => hasPre20 k) =
        sortStrings ((vs'.map Prod.fst).filter fun k => hasPre20 k) :=
      List.eq_of_perm_of_sorted
        (((List.perm_insertionSort _ _).trans (hperm.filter _)).trans
          (List.perm_insertionSort _ _).symm)
        (List.sorted_insertionSort _ _) (List.sorted_insertionSort _ _)
    rw [getVersionKeys, getVersionKeys, e1, e2]

/-- Claim C3 witness: the spec's own example key set, listed in two
different orders, yields the same listing. -/
theorem getVersionKeys_spec_witness :
    getVersionKeys [("2021.1", "a"), ("5.6", "b"), ("2019.4", "c"), ("4.7", "d")] =
      getVersionKeys [("4.7", "d"), ("2019.4", "c"), ("2021.1", "a"), ("5.6", "b")] :=
  (getVersionKeys_spec
    [("2021.1", "a"), ("5.6", "b"), ("2019.4", "c"), ("4.7", "d")]
    [("4.7", "d"), ("2019.4", "c"), ("2021.1", "a"), ("5.6", "b")]
    (by decide)).2.2

/-! ## Claim theorems: project version extraction and resolution -/

theorem findCapL_ne_nil : ∀ {l cap : List Char}, findCapL l = some cap → cap ≠ [] := by
  intro l
  induction l with
  | nil => intro cap h; cases h
  | cons c rest ih =>
    intro cap h
    rw [findCapL] at h
    split at h
    · split at h
      · exact ih h
      · rename_i hne
        injection h with h
        subst h
        simpa [List.isEmpty_iff] using hne
    · exact ih h

/-- Claim C5: version extraction fails fatally when the metadata file is
absent; fails fatally when the file exists but its contents contain no
line matching the pattern `m_EditorVersion: (.+)` — never returning an
empty or partial string; and otherwise returns exactly the captured
value, which is nonempty. -/
theorem getProjectVersion_spec (md : Option String) :
    (md = none → getProjectVersion md = .error "No ProjectVersion.txt")
    ∧ (∀ d, md = some d → findVersionCapture d = none →
        getProjectVersion md = .error "ProjectVersion.txt doesn't have m_EditorVersion")
    ∧ (∀ v, getProjectVersion md = .ok v →
        ∃ d, md = some d ∧ findVersionCapture d = some v ∧ v ≠ "") := by
  refine ⟨?_, ?_, ?_⟩
  · intro h; subst h; rfl
  · intro d h hf
    subst h
    simp [getProjectVersion, hf]
  · intro v h
    cases md with
    | none => rw [getProjectVersion] at h; cases h
    | some d =>
      rw [getProjectVersion] at h
      cases hf : findVersionCapture d with
      | none => rw [hf] at h; cases h
      | some v0 =>
        rw [hf] at h
        injection h with h
        subst h
        refine ⟨d, rfl, hf, ?_⟩
        rw [findVersionCapture] at hf
        cases hc : findCapL d.data with
        | none => rw [hc] at hf; cases hf
        | some cap =>
          rw [hc] at hf
          injection hf with hf
          intro hemp
          refine findCapL_ne_nil hc ?_
          have h2 := congrArg String.data (hf.trans hemp)
          simpa using h2

/-- Claim C5 witness: a present metadata file without the field fails
with the exact message, and a good one extracts the capture. -/
theorem getProjectVersion_spec_witness :
    getProjectVersion (some "no version line here") =
      .error "ProjectVersion.txt doesn't have m_EditorVersion" :=
  (getProjectVersion_spec (some "no version line here")).2.1
    "no version line here" rfl rfl

/-- Claim C4: resolution looks the extracted version up directly in the
versions mapping; on a hit the mapped executable is returned and the
launch `exe -projectPath path` is started, and on a miss it fails fatally
with the "version not found" error — no fallback, fuzzy matching, or
rebuild. -/
theorem openProject_spec (versions : List (String × String)) (pp : String)
    (md : Option String) (v : String) (hv : getProjectVersion md = .ok v) :
    (∀ exe, lookupKV versions v = some exe →
      openProject versions pp md = .ok (exe, ["-projectPath", pp]))
    ∧ (lookupKV versions v = none →
      openProject versions pp md = .error "The version not found") := by
  constructor
  · intro exe hl
    simp [openProject, hv, hl]
  · intro hl
    simp [openProject, hv, hl]

/-- Claim C4 witness: the spec's own resolution example. -/
theorem openProject_spec_witness :
    openProject [("2021.1.0f1", "C:/path/to/App")] "C:/proj"
      (some "m_EditorVersion: 2021.1.0f1") =
      .ok ("C:/path/to/App", ["-projectPath", "C:/proj"]) :=
  (openProject_spec [("2021.1.0f1", "C:/path/to/App")] "C:/proj"
    (some "m_EditorVersion: 2021.1.0f1") "2021.1.0f1" rfl).1 "C:/path/to/App" rfl

theorem findCapL_prefix_skip : ∀ {pre l : List Char}, (∀ c ∈ pre, c ≠ 'm') →
    findCapL (pre ++ l) = findCapL l := by
  intro pre
  induction pre with
  | nil => intro l _; rfl
  | cons c pre ih =>
    intro l h
    rw [List.cons_append, findCapL]
    have hc : ('m' == c) = false := by
      have := h c (List.mem_cons_self _ _)
      simp [Ne.symm this]
    have hpre : versionMarker.isPrefixOf (c :: (pre ++ l)) = false := by
      rw [show versionMarker = 'm' :: "_EditorVersion: ".data from rfl,
        List.isPrefixOf, hc]
      rfl
    rw [hpre]
    simp only [Bool.false_eq_true, if_false]
    exact ih fun c2 h2 => h c2 (List.mem_cons_of_mem _ h2)

theorem takeWhile_v_cr (v rest : List Char) (hv : ∀ c ∈ v, c ≠ '\n') :
    (v ++ '\r' :: '\n' :: rest).takeWhile (· ≠ '\n') = v ++ ['\r'] := by
  induction v with
  | nil => rfl
  | cons c v ih =>
    rw [List.cons_append, List.takeWhile_cons,
      decide_eq_true (hv c (List.mem_cons_self _ _))]
    simp only [if_true, List.cons_append]
    rw [ih fun c2 h2 => hv c2 (List.mem_cons_of_mem _ h2)]

theorem findCapL_marker (v rest : List Char) (hv : ∀ c ∈ v, c ≠ '\n') :
    findCapL (versionMarker ++ (v ++ '\r' :: '\n' :: rest)) =
      some (v ++ ['\r']) := by
  rw [show versionMarker ++ (v ++ '\r' :: '\n' :: rest)
      = 'm' :: ("_EditorVersion: ".data ++ (v ++ '\r' :: '\n' :: rest)) from rfl]
  rw [findCapL]
  have hpre : versionMarker.isPrefixOf
      ('m' :: ("_EditorVersion: ".data ++ (v ++ '\r' :: '\n' :: rest))) = true := by
    rw [show ('m' :: ("_EditorVersion: ".data ++ (v ++ '\r' :: '\n' :: rest)))
        = versionMarker ++ (v ++ '\r' :: '\n' :: rest) from rfl]
    exact List.isPrefixOf_iff_prefix.mpr (List.prefix_append _ _)
  rw [hpre]
  simp only [if_true]
  have hdrop : ('m' :: ("_EditorVersion: ".data ++ (v ++ '\r' :: '\n' :: rest))).drop
      versionMarker.length = v ++ '\r' :: '\n' :: rest := by
    rw [show ('m' :: ("_EditorVersion: ".data ++ (v ++ '\r' :: '\n' :: rest)))
        = versionMarker ++ (v ++ '\r' :: '\n' :: rest) from rfl]
    exact List.drop_left _ _
  rw [hdrop, takeWhile_v_cr v rest hv]
  have hne : (v ++ ['\r']).isEmpty = false := by
    cases v <;> rfl
  rw [hne]
  rfl

theorem lookupKV_no_cr (v : String) (versions : List (String × String))
    (hk : ∀ kv ∈ versions, '\r' ∉ (kv.1 : String).data) :
    lookupKV versions (v ++ "\r") = none := by
  induction versions with
  | nil => rfl
  | cons kv rest ih =>
    obtain ⟨k, val⟩ := kv
    rw [lookupKV, if_neg ?_]
    · exact ih fun kv h => hk kv (List.mem_cons_of_mem _ h)
    · intro he
      refine hk (k, val) (List.mem_cons_self _ _) ?_
      rw [he, String.data_append]
      simp

/-- Claim C10: on metadata whose `m_EditorVersion` line ends with a
Windows CRLF, the capture of `m_EditorVersion: (.+)` stops at the line
feed but includes the preceding carriage return, so extraction returns
the version with a trailing CR appended — and that value can never equal
a carriage-return-free registry key, so resolution then fails with the
"version not found" error. -/
theorem crlf_capture_spec (pre v rest pp : String)
    (versions : List (String × String))
    (hpre : ∀ c ∈ pre.data, c ≠ 'm') (hv : ∀ c ∈ v.data, c ≠ '\n')
    (hk : ∀ kv ∈ versions, '\r' ∉ (kv.1 : String).data) :
    getProjectVersion (some (pre ++ "m_EditorVersion: " ++ v ++ "\r\n" ++ rest)) =
      .ok (v ++ "\r")
    ∧ openProject versions pp
        (some (pre ++ "m_EditorVersion: " ++ v ++ "\r\n" ++ rest)) =
      .error "The version not found" := by
  have hdata : (pre ++ "m_EditorVersion: " ++ v ++ "\r\n" ++ rest).data
      = pre.data ++ (versionMarker ++ (v.data ++ '\r' :: '\n' :: rest.data)) := by
    simp only [String.data_append, versionMarker, List.append_assoc]
    rfl
  have hfind : findVersionCapture (pre ++ "m_EditorVersion: " ++ v ++ "\r\n" ++ rest) =
      some (v ++ "\r") := by
    rw [findVersionCapture, hdata, findCapL_prefix_skip hpre,
      findCapL_marker v.data rest.data hv]
    have : String.mk (v.data ++ ['\r']) = v ++ "\r" := by
      apply String.ext
      simp
    rw [Option.map_some', this]
  have hgp : getProjectVersion
      (some (pre ++ "m_EditorVersion: " ++ v ++ "\r\n" ++ rest)) = .ok (v ++ "\r") := by
    simp [getProjectVersion, hfind]
  refine ⟨hgp, ?_⟩
  simp [openProject, hgp, lookupKV_no_cr v versions hk]

/-- Claim C10 witness: a concrete CRLF metadata file against a
carriage-return-free registry. -/
theorem crlf_capture_spec_witness :
    getProjectVersion
        (some ("" ++ "m_EditorVersion: " ++ "2021.1.0f1" ++ "\r\n" ++ "")) =
      .ok ("2021.1.0f1" ++ "\r")
    ∧ openProject [("2021.1.0f1", "C:/path/to/App")] "C:/proj"
        (some ("" ++ "m_EditorVersion: " ++ "2021.1.0f1" ++ "\r\n" ++ "")) =
      .error "The version not found" :=
  crlf_capture_spec "" "2021.1.0f1" "" "C:/proj" [("2021.1.0f1", "C:/path/to/App")]
    (by decide) (by decide) (by decide)

/-! ## Claim theorems: rebuild persistence round-trip -/

theorem expectL_append (lit r : List Char) : expectL lit (lit ++ r) = some r := by
  rw [expectL, if_pos (List.isPrefixOf_iff_prefix.mpr (List.prefix_append lit r)),
    List.drop_left]

theorem takeWhile_append_stop {p : Char → Bool} :
    ∀ (xs : List Char) (c : Char) (ys : List Char),
      (∀ x ∈ xs, p x = true) → p c = false →
      (xs ++ c :: ys).takeWhile p = xs ∧ (xs ++ c :: ys).dropWhile p = c :: ys := by
  intro xs
  induction xs with
  | nil =>
    intro c ys _ hc
    constructor
    · rw [List.nil_append, List.takeWhile_cons, hc]
      simp
    · rw [List.nil_append, List.dropWhile_cons, hc]
      simp
  | cons x xs ih =>
    intro c ys hall hc
    have hx : p x = true := hall x (List.mem_cons_self _ _)
    obtain ⟨h1, h2⟩ := ih c ys (fun y hy => hall y (List.mem_cons_of_mem _ hy)) hc
    constructor
    · rw [List.cons_append, List.takeWhile_cons, hx, if_pos rfl, h1]
    · rw [List.cons_append, List.dropWhile_cons, hx, if_pos rfl, h2]

theorem readStr_append (sd r : List Char) (hq : '"' ∉ sd) :
    readStr (sd ++ '"' :: r) = some (sd, r) := by
  have hall : ∀ x ∈ sd, (decide (x ≠ '"')) = true := fun x hx =>
    decide_eq_true fun he => hq (he ▸ hx)
  have hc : (decide (('"' : Char) ≠ '"')) = false := by decide
  obtain ⟨h1, h2⟩ := takeWhile_append_stop sd '"' r hall hc
  rw [readStr]
  rw [h2, h1]

theorem encodeVersL_decode :
    ∀ (vs : List (String × String)) (fuel : Nat),
      (∀ kv ∈ vs, '"' ∉ (kv.1 : String).data ∧ '"' ∉ (kv.2 : String).data) →
      (encodeVersL vs).length ≤ fuel →
      decodeVersGo fuel (encodeVersL vs) = some vs := by
  intro vs
  induction vs with
  | nil => intro fuel _ _; cases fuel <;> rfl
  | cons kv rest ih =>
    intro fuel hwf hlen
    obtain ⟨k, v⟩ := kv
    have hshape : encodeVersL ((k, v) :: rest)
        = '"' :: (k.data ++ '"' :: (" = ".data ++ '"' ::
          (v.data ++ '"' :: '\n' :: encodeVersL rest))) := by
      simp [encodeVersL, List.append_assoc]
    cases fuel with
    | zero =>
      exfalso
      rw [hshape] at hlen
      simp at hlen
    | succ f =>
      rw [hshape, decodeVersGo]
      have e1 : expectL ['"']
          ('"' :: (k.data ++ '"' :: (" = ".data ++ '"' ::
            (v.data ++ '"' :: '\n' :: encodeVersL rest))))
          = some (k.data ++ '"' :: (" = ".data ++ '"' ::
            (v.data ++ '"' :: '\n' :: encodeVersL rest))) := by
        have h := expectL_append ['"'] (k.data ++ '"' :: (" = ".data ++ '"' ::
          (v.data ++ '"' :: '\n' :: encodeVersL rest)))
        rwa [List.singleton_append] at h
      have hk : '"' ∉ k.data := (hwf (k, v) (List.mem_cons_self _ _)).1
      have hv : '"' ∉ v.data := (hwf (k, v) (List.mem_cons_self _ _)).2
      have e2 := readStr_append k.data (" = ".data ++ '"' ::
        (v.data ++ '"' :: '\n' :: encodeVersL rest)) hk
      have e3 : expectL ([' '] ++ "= ".data ++ ['"'])
          (" = ".data ++ '"' :: (v.data ++ '"' :: '\n' :: encodeVersL rest))
          = some (v.data ++ '"' :: '\n' :: encodeVersL rest) := by
        have h := expectL_append ([' '] ++ "= ".data ++ ['"'])
          (v.data ++ '"' :: '\n' :: encodeVersL rest)
        simpa [List.append_assoc] using h
      have e4 := readStr_append v.data ('\n' :: encodeVersL rest) hv
      have e5 : expectL ['\n'] ('\n' :: encodeVersL rest) = some (encodeVersL rest) := by
        have h := expectL_append ['\n'] (encodeVersL rest)
        rwa [List.singleton_append] at h
      have e6 : decodeVersGo f (encodeVersL rest) = some rest := by
        refine ih f (fun kv h => hwf kv (List.mem_cons_of_mem _ h)) ?_
        rw [hshape] at hlen
        simp only [List.length_cons, List.length_append] at hlen ⊢
        omega
      rw [e1]
      simp only [e2, e3, e4, e5, e6]

theorem decode_encode (c : Config) (hpd : '"' ∉ c.ProgramDir.data)
    (hdp : '"' ∉ c.DirPattern.data)
    (hvs : ∀ kv ∈ c.Versions, '"' ∉ (kv.1 : String).data ∧ '"' ∉ (kv.2 : String).data) :
    decodeConfig (encodeConfig c) = some c := by
  have hshape : encodeConfigL c
      = ("ProgramDir = ".data ++ ['"'])
        ++ (c.ProgramDir.data ++ '"' ::
          ((['\n'] ++ "DirPattern = ".data ++ ['"'])
            ++ (c.DirPattern.data ++ '"' ::
              ((['\n'] ++ "[Versions]".data ++ ['\n'])
                ++ encodeVersL c.Versions)))) := by
    simp [encodeConfigL, List.append_assoc]
  have hdc : decodeConfig (encodeConfig c) = decodeConfigL (encodeConfigL c) := rfl
  rw [hdc, hshape, decodeConfigL]
  have e1 := expectL_append ("ProgramDir = ".data ++ ['"'])
    (c.ProgramDir.data ++ '"' ::
      ((['\n'] ++ "DirPattern = ".data ++ ['"'])
        ++ (c.DirPattern.data ++ '"' ::
          ((['\n'] ++ "[Versions]".data ++ ['\n']) ++ encodeVersL c.Versions))))
  have e2 := readStr_append c.ProgramDir.data
    ((['\n'] ++ "DirPattern = ".data ++ ['"'])
      ++ (c.DirPattern.data ++ '"' ::
        ((['\n'] ++ "[Versions]".data ++ ['\n']) ++ encodeVersL c.Versions))) hpd
  have e3 := expectL_append (['\n'] ++ "DirPattern = ".data ++ ['"'])
    (c.DirPattern.data ++ '"' ::
      ((['\n'] ++ "[Versions]".data ++ ['\n']) ++ encodeVersL c.Versions))
  have e4 := readStr_append c.DirPattern.data
    ((['\n'] ++ "[Versions]".data ++ ['\n']) ++ encodeVersL c.Versions) hdp
  have e5 := expectL_append (['\n'] ++ "[Versions]".data ++ ['\n'])
    (encodeVersL c.Versions)
  have e6 := encodeVersL_decode c.Versions (encodeVersL c.Versions).length hvs
    (Nat.le_refl _)
  simp only [e1, e2, e3, e4, e5, e6]

/-- Claim C6: every rebuild immediately persists the resulting
configuration, and decoding that same storage yields an equal
configuration — same installation root, same directory pattern, and the
same version-to-path mapping (stated for configurations whose strings
contain no quote character, which the modelled document format cannot
escape). -/
theorem initConfig_roundtrip (files : List FSEntry) (c : Config) (st : String)
    (h : initConfig files = .ok (c, st))
    (hpd : '"' ∉ c.ProgramDir.data) (hdp : '"' ∉ c.DirPattern.data)
    (hvs : ∀ kv ∈ c.Versions, '"' ∉ (kv.1 : String).data ∧ '"' ∉ (kv.2 : String).data) :
    st = encodeConfig c ∧ decodeConfig st = some c := by
  have hst : st = encodeConfig c := by
    rw [initConfig] at h
    split at h
    · cases h
    · injection h with h
      injection h with h1 h2
      rw [← h2, ← h1]
  exact ⟨hst, by rw [hst]; exact decode_encode c hpd hdp hvs⟩

/-- Claim C6 witness: a concrete rebuild over one discovered version
round-trips through storage. -/
theorem initConfig_roundtrip_witness :
    encodeConfig
        ⟨"C:/Program Files", "^Unity(.+)$",
          [("5.6", "C:/Program Files/Unity5.6/Unity.exe")]⟩
      = encodeConfig
        ⟨"C:/Program Files", "^Unity(.+)$",
          [("5.6", "C:/Program Files/Unity5.6/Unity.exe")]⟩
    ∧ decodeConfig (encodeConfig
        ⟨"C:/Program Files", "^Unity(.+)$",
          [("5.6", "C:/Program Files/Unity5.6/Unity.exe")]⟩)
      = some ⟨"C:/Program Files", "^Unity(.+)$",
          [("5.6", "C:/Program Files/Unity5.6/Unity.exe")]⟩ :=
  initConfig_roundtrip [FSEntry.dir "Unity5.6" [FSEntry.file "Unity.exe"]]
    ⟨"C:/Program Files", "^Unity(.+)$",
      [("5.6", "C:/Program Files/Unity5.6/Unity.exe")]⟩
    (encodeConfig ⟨"C:/Program Files", "^Unity(.+)$",
      [("5.6", "C:/Program Files/Unity5.6/Unity.exe")]⟩)
    rfl (by decide) (by decide) (by decide)

/-! ## Claim theorems: startup load/rebuild selection -/

/-- Claim C8: at startup exactly one of load or rebuild runs — with the
reload flag set, rebuild runs unconditionally (the stored configuration is
not even consulted); otherwise a load is attempted, a successful decode is
used as-is, and a missing or malformed persisted configuration falls back
to rebuild, with the load failure never surfaced as an error. -/
theorem startupConfig_spec (reload : Bool) (stored : Option String)
    (files : List FSEntry) :
    (reload = true → startupConfig reload stored files = .rebuilt (initConfig files))
    ∧ (reload = false → ∀ c, stored.bind decodeConfig = some c →
        startupConfig reload stored files = .loaded c)
    ∧ (reload = false → stored.bind decodeConfig = none →
        startupConfig reload stored files = .rebuilt (initConfig files)) := by
  refine ⟨?_, ?_, ?_⟩
  · intro h; subst h; rfl
  · intro h c hdec; subst h; simp [startupConfig, hdec]
  · intro h hdec; subst h; simp [startupConfig, hdec]

/-- Claim C8 witness: with no stored configuration and the flag unset,
startup falls back to rebuild. -/
theorem startupConfig_spec_witness :
    startupConfig false none [FSEntry.dir "Unity5.6" [FSEntry.file "Unity.exe"]]
      = .rebuilt (initConfig [FSEntry.dir "Unity5.6" [FSEntry.file "Unity.exe"]]) :=
  (startupConfig_spec false none
    [FSEntry.dir "Unity5.6" [FSEntry.file "Unity.exe"]]).2.2 rfl rfl

example : walk "C:/x" (.file "Unity.exe") = .found "C:/x" := by decide
example : deepFind "C:/x" (.dir "d" [.file "a", .file "Unity.exe"]) "whatever" =
    .ok "C:/x/Unity.exe" := by decide
example : deepFind "C:/x" (.dir "d" []) "Unity.exe" = .fatal := by decide
example : unityCapture "Unity2019.4" = some "2019.4" := by decide
example : unityCapture "unity2019.4" = none := by decide
example : loadVersions unityCapture "C:/Program Files"
    [.dir "Unity5.6" [.dir "Editor" [.file "Unity.exe"]], .file "Unityx"] =
    .ok [("5.6", "C:/Program Files/Unity5.6/Editor/Unity.exe")] := rfl
example : loadVersions unityCapture "C:/Program Files"
    [.dir "Unity2019.4" [], .dir "Unity5.6" [.file "Unity.exe"]] = .error () := rfl
